import Mathlib

/-!
Shallow embedding of the dense-matrix linear algebra routines of
`nytl/bits/mat.inl` (pivoted LU decomposition, determinant, row echelon and
reduced row echelon reduction), together with a spec-modelled matrix inverse
(the inverse routines are exercised by `docs/tests/mat.cpp` but their code is
not part of the source tree).

Modelling conventions:
* A matrix is a total function `Nat → Nat → ℚ`; the C++ template `mat<R, C, P>`
  stores only the entries with row `< R` and column `< C`, so entries at or
  beyond those bounds are immaterial junk.  All properties below only consult
  the stored block, except where the point is precisely that the C++ code
  indexes past it (claim C2).
* The floating-point scalar `P` is idealised as exact rational arithmetic.
  `ℚ` division is total with `x / 0 = 0`, where IEEE doubles produce
  non-finite values; every statement touching a division by zero is settled in
  a way that has the same verdict under both readings (the disputed equality
  fails either way).
* In-place mutation becomes explicit state passing: each C++ loop is either a
  `List.foldl` over the exact iteration range or a structurally recursive
  function on the loop's fuel (`bound - counter`), so that every definition
  evaluates by kernel reduction.
-/

set_option maxHeartbeats 1600000
set_option maxRecDepth 8000

/- Batteries marks the `Rat` field operations `@[irreducible]`, which blocks
the evaluation of concrete instances by `decide`; restore the reducibility the
kernel uses anyway. -/
set_option allowUnsafeReducibility true in
attribute [semireducible] Rat.add Rat.sub Rat.mul Rat.inv

namespace Nytl

/-- Rational-valued matrix, indexed by natural row/column numbers. -/
abbrev Mat : Type := Nat → Nat → ℚ

/-- `swapRow` (mat.inl lines 38-45): exchange rows `a` and `b`.
The C++ loop swaps the stored columns one by one; the model swaps whole rows,
which agrees on every stored entry. -/
def swapRow (m : Mat) (a b : Nat) : Mat := fun r c =>
  if r = a then m b c else if r = b then m a c else m r c

/-- `identityMat` (mat.inl lines 59-65): zero matrix with `1` at the first `D`
diagonal positions. -/
def identityMat (D : Nat) : Mat := fun r c => if r = c ∧ r < D then 1 else 0

/-- The row-of-maximal-absolute-value scan shared by `pivot` (mat.inl lines
78-84) and `refMat` (lines 167-172): fold the update
`if (abs(m[r][c]) > abs(m[maxR][c])) maxR = r` over the listed row indices. -/
def maxRowFold (m : Mat) (c : Nat) (start : Nat) (rows : List Nat) : Nat :=
  rows.foldl (fun maxR r => if |m maxR c| < |m r c| then r else maxR) start

/-- The body of `pivot`'s column loop (mat.inl lines 76-91): find the row of
maximal absolute value in column `c` at or below the diagonal, swap it into the
diagonal position when different, flipping the sign. -/
def pivotStep (D : Nat) (st : Mat × Int) (c : Nat) : Mat × Int :=
  let maxR := maxRowFold st.1 c c (List.range' c (D - c))
  if maxR ≠ c then (swapRow st.1 c maxR, -st.2) else st

/-- `pivot` (mat.inl lines 71-94) for a square `D × D` matrix: runs the column
loop left to right starting from sign `+1`; returns the permuted matrix
(the C++ call mutates its argument) together with the accumulated sign. -/
def pivot (D : Nat) (m : Mat) : Mat × Int :=
  (List.range D).foldl (pivotStep D) (m, 1)

/-- Single-entry update of a matrix (the C++ assignment `lu[i][r][c] = v`). -/
def updMat (m : Mat) (i j : Nat) (v : ℚ) : Mat := fun r c =>
  if r = i ∧ c = j then v else m r c

/-- Body of the inner column loop of `luDecomposition` (mat.inl lines 106-129)
for row `r`, acting on the state `(lu[0], lu[1]) = (L, U)`:
if `c ≥ r` set `U[r][c] = m[r][c] - Σ_{k<r} U[k][c]·L[r][k]`, otherwise set
`L[r][c] = (m[r][c] - Σ_{k<c} U[k][c]·L[r][k]) / U[c][c]`. -/
def luColStep (m : Mat) (r : Nat) (st : Mat × Mat) (c : Nat) : Mat × Mat :=
  if r ≤ c then
    (st.1, updMat st.2 r c (m r c - ∑ k ∈ Finset.range r, st.2 k c * st.1 r k))
  else
    (updMat st.1 r c
      ((m r c - ∑ k ∈ Finset.range c, st.2 k c * st.1 r k) / st.2 c c), st.2)

/-- Outer row loop body of `luDecomposition` (mat.inl lines 104-130). -/
def luRowStep (D : Nat) (m : Mat) (st : Mat × Mat) (r : Nat) : Mat × Mat :=
  (List.range D).foldl (luColStep m r) st

/-- `luDecomposition` (mat.inl lines 97-133): `lu[0]` starts as the identity,
`lu[1]` as the zero matrix, then the doubly nested loop fills the strict lower
part of `L` and the upper part of `U`.  Returns `(L, U) = (lu[0], lu[1])`. -/
def luDecomposition (D : Nat) (m : Mat) : Mat × Mat :=
  (List.range D).foldl (luRowStep D m) (identityMat D, fun _ _ => 0)

/-- State of `luDecomposition` after the outer loop has processed rows
`0 .. r-1`. -/
def luRows (D : Nat) (m : Mat) (r : Nat) : Mat × Mat :=
  (List.range r).foldl (luRowStep D m) (identityMat D, fun _ _ => 0)

/-- State of `luDecomposition` after additionally processing columns
`0 .. c-1` of row `r`. -/
def luCols (D : Nat) (m : Mat) (r c : Nat) : Mat × Mat :=
  (List.range c).foldl (luColStep m r) (luRows D m r)

/-- `diagonalMult` (mat.inl lines 136-144): product of the diagonal entries
`m[i][i]`, `i < D` (the loop accumulates into `ret = 1`). -/
def diagonalMult (D : Nat) (m : Mat) : ℚ := ∏ i ∈ Finset.range D, m i i

/-- `det` (mat.inl lines 147-155): pivot a working copy, LU-decompose it and
return `diagonalMult(lu[0]) * diagonalMult(lu[1]) * psign`.  Total function:
no error path exists in the source. -/
def det (D : Nat) (m : Mat) : ℚ :=
  let p := pivot D m
  let luMats := luDecomposition D p.1
  diagonalMult D luMats.1 * diagonalMult D luMats.2 * (p.2 : ℚ)

/-- Matrix product restricted to the leading `D × D` block, the semantics of
`operator*` (mat.inl lines 339-349): entry `(r, c)` is the dot product of row
`r` of `a` with column `c` of `b`. -/
def matMul (D : Nat) (a b : Mat) : Mat := fun r c =>
  ∑ k ∈ Finset.range D, a r k * b k c

/-- The leading `D × D` block of a matrix as a Mathlib matrix, used to state
mathematical singularity (`Matrix.det` vanishing). -/
def toMatrix (D : Nat) (m : Mat) : Matrix (Fin D) (Fin D) ℚ :=
  Matrix.of fun i j => m (i : Nat) (j : Nat)

/-- The argmax search of `refMat` (mat.inl lines 167-172): start from the
current row `r` and scan rows `r+1 .. R-1`. -/
def maxRowRef (m : Mat) (R r c : Nat) : Nat :=
  maxRowFold m c r (List.range' (r + 1) (R - (r + 1)))

/-- The pivot-search inner loop of `refMat` (mat.inl lines 165-183), run with
fuel `C - c`.  Returns `none` when the function returns early (zero pivot in
the last column), otherwise `some (m', c')` with the matrix after the possible
row swap and the column at which the loop stopped.  When the loop condition
`c < C` fails at entry (fuel `0`, reachable only when `R > C`), the C++ code
falls through to the normalisation with the out-of-range column `c`. -/
def refFindGo (R C : Nat) (m : Mat) (r : Nat) : Nat → Nat → Option (Mat × Nat)
  | 0, c => some (m, c)
  | fuel + 1, c =>
    let maxR := maxRowRef m R r c
    if m maxR c ≠ 0 then some (if r ≠ maxR then swapRow m r maxR else m, c)
    else if c = C - 1 then none
    else refFindGo R C m r fuel (c + 1)

/-- Entry point of the pivot search with the fuel set to the remaining
columns. -/
def refFind (R C : Nat) (m : Mat) (r c : Nat) : Option (Mat × Nat) :=
  refFindGo R C m r (C - c) c

/-- The elimination loop of `refMat` (mat.inl lines 187-193): for each row
`r2 = r+1 .. R-1` with `m[r2][c] ≠ 0`, subtract `(m[r2][c]/m[r][c]) * m[r]`.
Each iteration touches only row `r2` and reads rows `r2` and `r`, so the
batched functional update coincides with the sequential loop. -/
def elimBelow (R : Nat) (m : Mat) (r c : Nat) : Mat := fun i j =>
  if r < i ∧ i < R ∧ m i c ≠ 0 then m i j - m i c / m r c * m r j else m i j

/-- The outer row loop of `refMat` (mat.inl lines 162-194), fuel `R - r`.
The column counter `c` is shared across rows and incremented along with `r`
(the `++r, ++c` loop header); `m[r] /= m[r][c]` divides the whole row by the
pivot entry, read before the division. -/
def refGoN (R C : Nat) : Nat → Mat → Nat → Nat → Mat
  | 0, m, _, _ => m
  | fuel + 1, m, r, c =>
    match refFind R C m r c with
    | none => m
    | some (m1, c1) =>
      refGoN R C fuel
        (elimBelow R (fun i j => if i = r then m1 i j / m1 r c1 else m1 i j) r c1)
        (r + 1) (c1 + 1)

/-- `refMat` (mat.inl lines 159-195): row echelon form, in place in C++. -/
def refMat (R C : Nat) (m : Mat) : Mat := refGoN R C R m 0 0

/-- `analyzeRefMat` (mat.inl lines 211-216).  The body is `//TODO` followed by
`return 0;`, its documentation notwithstanding. -/
def analyzeRefMat (_R _C : Nat) (_m : Mat) : Nat := 0

/-- The leading-entry scan of `rrefMat` (mat.inl lines 226-230), fuel `C - c`:
`for(c = 0; c < C; ++c) if (m[r][c] != 0) break;`.  When the row has no
nonzero stored entry the loop exits with `c = C`. -/
def leadScanGo (m : Mat) (r : Nat) : Nat → Nat → Nat
  | 0, c => c
  | fuel + 1, c => if m r c ≠ 0 then c else leadScanGo m r fuel (c + 1)

/-- The scan started at column `0` as in the source. -/
def leadScan (m : Mat) (C r : Nat) : Nat := leadScanGo m r C 0

/-- One iteration of the bottom-to-top pass of `rrefMat` (mat.inl lines
224-243): scan for the leading nonzero entry, test `m[r][c] == 0` at the
scan's final column (for an all-zero row this consults column `C`, which in
the C++ code is an out-of-bounds read), then normalise row `r` and eliminate
column `c` from all rows above. -/
def rrefRowStep (C : Nat) (m : Mat) (r : Nat) : Mat :=
  let c := leadScan m C r
  if m r c = 0 then m
  else
    let m1 : Mat := fun i j => if i = r then m i j / m r c else m i j
    fun i j => if i < r then m1 i j - m1 i c * m1 r j else m1 i j

/-- `rrefMat` (mat.inl lines 219-244): `refMat` followed by the bottom-to-top
pass `for(int r = R - 1; r >= 0; --r)`. -/
def rrefMat (R C : Nat) (m : Mat) : Mat :=
  ((List.range R).reverse).foldl (rrefRowStep C) (refMat R C m)

/-- Matrix built from a row-major list of rows (entries outside the listed
block are `0`); used for the concrete instances below. -/
def listMat (l : List (List ℚ)) : Mat := fun r c => (l.getD r []).getD c 0

/-- The all-zero matrix. -/
def zeroMat : Mat := fun _ _ => 0

/-- The 3×5 system of the echelon test in docs/tests/mat.cpp lines 19-23. -/
def echA : Mat :=
  listMat [[2, 1, -1, 8, 80], [-3, -1, 2, -11, -110], [-2, 1, 2, -3, -30]]

/-- Its expected reduced row echelon form (docs/tests/mat.cpp lines 25-29). -/
def echR : Mat :=
  listMat [[1, 0, 0, 2, 20], [0, 1, 0, 3, 30], [0, 0, 1, -1, -10]]

/-- The 3×3 matrix `[[2,2,0],[1,1,1],[0,1,1]]`: pivoting leaves it unchanged
and the second pivot of its LU elimination vanishes, so `luDecomposition`
divides by zero. -/
def cexA : Mat := listMat [[2, 2, 0], [1, 1, 1], [0, 1, 1]]

/-- A well-conditioned 2×2 example used by the witnesses. -/
def wA : Mat := listMat [[2, 1], [1, 1]]

/-- The 2×2 all-ones matrix, a singular example. -/
def onesMat : Mat := fun _ _ => 1

/-- Modelled from the spec: the error value of §4.5 — both inverse entry
points "fail with an invalid-argument condition when the matrix (or its LU
factors) is singular". -/
def singMsg : String := "invalid_argument: singular matrix"

/-- Modelled from the spec (§4.2 step 1): one column step of the pivot of
§4.1, recording the permutation additionally as a permutation matrix, obtained
by applying every row swap to the identity matrix as well. -/
def pivotPStep (D : Nat) (st : (Mat × Int) × Mat) (c : Nat) : (Mat × Int) × Mat :=
  let maxR := maxRowFold st.1.1 c c (List.range' c (D - c))
  if maxR ≠ c then ((swapRow st.1.1 c maxR, -st.1.2), swapRow st.2 c maxR) else st

/-- Modelled from the spec (§4.2 step 1): the pivot together with its
permutation matrix `P`.  The inverse routines are not in the source tree (only
`docs/tests/mat.cpp` calls them), so the permutation matrix they consume is
modelled here. -/
def pivotP (D : Nat) (m : Mat) : (Mat × Int) × Mat :=
  (List.range D).foldl (pivotPStep D) ((m, 1), identityMat D)

/-- Modelled from the spec (§4.5): forward substitution solving `L·y = e`,
computed as the list `[y 0, …, y (n-1)]`; `y r = (e r - Σ_{k<r} L r k · y k) / L r r`. -/
def fwdVec (L : Mat) (e : Nat → ℚ) : Nat → List ℚ
  | 0 => []
  | n + 1 =>
    let ys := fwdVec L e n
    ys ++ [(e n - ∑ k ∈ Finset.range n, L n k * ys.getD k 0) / L n n]

/-- Modelled from the spec (§4.5): back substitution solving `U·x = y` for a
`D`-dimensional system, computed bottom-up as the list `[x (D-n), …, x (D-1)]`;
`x r = (y r - Σ_{k>r} U r k · x k) / U r r`. -/
def bwdVec (D : Nat) (U : Mat) (y : Nat → ℚ) : Nat → List ℚ
  | 0 => []
  | n + 1 =>
    let xs := bwdVec D U y n
    let r := D - (n + 1)
    (y r - ∑ k ∈ Finset.Ico (r + 1) D, U r k * xs.getD (k - (r + 1)) 0) / U r r :: xs

/-- Modelled from the spec (§4.5): `inverse(L, U)` — fails with the
invalid-argument singular-matrix error when any diagonal entry of `U` is zero
(the reference behaviour uses the exact-zero comparison, §4.4/§9); otherwise,
for each column `c` of the identity, solve `L·y = e_c` by forward substitution
and `U·x = y` by back substitution, column `c` of the result being `x`. -/
def inverseLU (D : Nat) (L U : Mat) : Except String Mat :=
  if ∃ c ∈ Finset.range D, U c c = 0 then Except.error singMsg
  else
    Except.ok fun r c =>
      (bwdVec D U (fun i => (fwdVec L (fun j => if j = c then 1 else 0) D).getD i 0) D).getD r 0

/-- Modelled from the spec (§4.5): `inverse(A)` — decompose via LU, invert via
the LU-based path, then apply the permutation: `inverse(A) = LU-inverse(L,U) · P`. -/
def inverse (D : Nat) (m : Mat) : Except String Mat :=
  let lup := pivotP D m
  let lu := luDecomposition D lup.1.1
  (inverseLU D lu.1 lu.2).map fun inv => matMul D inv lup.2

/-! ### Helper lemmas about single updates and the loop states -/

theorem updMat_ne {m : Mat} {a b : Nat} {v : ℚ} {i j : Nat}
    (h : ¬(i = a ∧ j = b)) : updMat m a b v i j = m i j := if_neg h

theorem updMat_self (m : Mat) (a b : Nat) (v : ℚ) : updMat m a b v a b = v :=
  if_pos ⟨rfl, rfl⟩

theorem luColStep_L_ne (m : Mat) (a : Nat) (st : Mat × Mat) (c i j : Nat)
    (h : ¬(i = a ∧ j = c)) : (luColStep m a st c).1 i j = st.1 i j := by
  unfold luColStep
  split
  · rfl
  · exact updMat_ne h

theorem luColStep_U_ne (m : Mat) (a : Nat) (st : Mat × Mat) (c i j : Nat)
    (h : ¬(i = a ∧ j = c)) : (luColStep m a st c).2 i j = st.2 i j := by
  unfold luColStep
  split
  · exact updMat_ne h
  · rfl

theorem luColStep_L_keep (m : Mat) (a : Nat) (st : Mat × Mat) (c i j : Nat)
    (hij : i ≤ j) : (luColStep m a st c).1 i j = st.1 i j := by
  unfold luColStep
  split
  · rfl
  · next hac => exact updMat_ne (by rintro ⟨rfl, rfl⟩; omega)

theorem luColStep_U_keep (m : Mat) (a : Nat) (st : Mat × Mat) (c i j : Nat)
    (hji : j < i) : (luColStep m a st c).2 i j = st.2 i j := by
  unfold luColStep
  split
  · next hac => exact updMat_ne (by rintro ⟨rfl, rfl⟩; omega)
  · rfl

theorem foldCols_L_keep (m : Mat) (a : Nat) (cs : List Nat) (st : Mat × Mat)
    (i j : Nat) (hij : i ≤ j) :
    ((cs.foldl (luColStep m a) st)).1 i j = st.1 i j := by
  induction cs generalizing st with
  | nil => rfl
  | cons c cs ih => rw [List.foldl_cons, ih, luColStep_L_keep m a st c i j hij]

theorem foldCols_U_keep (m : Mat) (a : Nat) (cs : List Nat) (st : Mat × Mat)
    (i j : Nat) (hji : j < i) :
    ((cs.foldl (luColStep m a) st)).2 i j = st.2 i j := by
  induction cs generalizing st with
  | nil => rfl
  | cons c cs ih => rw [List.foldl_cons, ih, luColStep_U_keep m a st c i j hji]

theorem foldRows_L_keep (D : Nat) (m : Mat) (rs : List Nat) (st : Mat × Mat)
    (i j : Nat) (hij : i ≤ j) :
    ((rs.foldl (luRowStep D m) st)).1 i j = st.1 i j := by
  induction rs generalizing st with
  | nil => rfl
  | cons r rs ih =>
    rw [List.foldl_cons, ih]
    exact foldCols_L_keep m r (List.range D) st i j hij

theorem foldRows_U_keep (D : Nat) (m : Mat) (rs : List Nat) (st : Mat × Mat)
    (i j : Nat) (hji : j < i) :
    ((rs.foldl (luRowStep D m) st)).2 i j = st.2 i j := by
  induction rs generalizing st with
  | nil => rfl
  | cons r rs ih =>
    rw [List.foldl_cons, ih]
    exact foldCols_U_keep m r (List.range D) st i j hji

/-- Entries of `L` on or above the diagonal are never written: they keep their
initial identity-matrix values. -/
theorem lu_L_upper (D : Nat) (m : Mat) (i j : Nat) (hij : i ≤ j) :
    (luDecomposition D m).1 i j = identityMat D i j :=
  foldRows_L_keep D m (List.range D) _ i j hij

/-- Entries of `U` strictly below the diagonal are never written: they keep
their initial value `0`. -/
theorem lu_U_lower (D : Nat) (m : Mat) (i j : Nat) (hji : j < i) :
    (luDecomposition D m).2 i j = 0 :=
  foldRows_U_keep D m (List.range D) _ i j hji

theorem lu_L_diag (D : Nat) (m : Mat) (i : Nat) (hi : i < D) :
    (luDecomposition D m).1 i i = 1 := by
  rw [lu_L_upper D m i i le_rfl]
  simp [identityMat, hi]

theorem lu_L_strict_upper (D : Nat) (m : Mat) (i j : Nat) (hij : i < j) :
    (luDecomposition D m).1 i j = 0 := by
  rw [lu_L_upper D m i j (le_of_lt hij)]
  simp [identityMat, Nat.ne_of_lt hij]

/-! ### Write-once analysis of the `luDecomposition` loops

Each position `(r, c)` of the factor pair is written at most once, at the step
`(r, c)` of the row-major double loop; the values it reads there are at
earlier positions and are already final.  This yields the defining equations
of the factors. -/

theorem not_mem_range'_small {i s : Nat} (n : Nat) (h : i < s) : i ∉ List.range' s n := by
  intro hmem
  rcases List.mem_range'.mp hmem with ⟨k, _, rfl⟩
  omega

theorem range_split (c D : Nat) (h : c ≤ D) :
    List.range D = List.range c ++ List.range' c (D - c) := by
  have h2 := List.range'_append_1 0 c (D - c)
  rw [Nat.zero_add] at h2
  rw [List.range_eq_range', List.range_eq_range', h2]
  congr 1
  omega

theorem foldCols_L_ne (m : Mat) (a : Nat) (cs : List Nat) (st : Mat × Mat)
    (i j : Nat) (h : i ≠ a ∨ j ∉ cs) :
    ((cs.foldl (luColStep m a) st)).1 i j = st.1 i j := by
  induction cs generalizing st with
  | nil => rfl
  | cons c cs ih =>
    have hstep : ¬(i = a ∧ j = c) := by
      rcases h with h | h
      · rintro ⟨rfl, -⟩; exact h rfl
      · rintro ⟨-, rfl⟩; exact h (List.mem_cons_self _ _)
    have htail : i ≠ a ∨ j ∉ cs := by
      rcases h with h | h
      · exact Or.inl h
      · exact Or.inr fun hj => h (List.mem_cons_of_mem _ hj)
    rw [List.foldl_cons, ih _ htail, luColStep_L_ne m a st c i j hstep]

theorem foldCols_U_ne (m : Mat) (a : Nat) (cs : List Nat) (st : Mat × Mat)
    (i j : Nat) (h : i ≠ a ∨ j ∉ cs) :
    ((cs.foldl (luColStep m a) st)).2 i j = st.2 i j := by
  induction cs generalizing st with
  | nil => rfl
  | cons c cs ih =>
    have hstep : ¬(i = a ∧ j = c) := by
      rcases h with h | h
      · rintro ⟨rfl, -⟩; exact h rfl
      · rintro ⟨-, rfl⟩; exact h (List.mem_cons_self _ _)
    have htail : i ≠ a ∨ j ∉ cs := by
      rcases h with h | h
      · exact Or.inl h
      · exact Or.inr fun hj => h (List.mem_cons_of_mem _ hj)
    rw [List.foldl_cons, ih _ htail, luColStep_U_ne m a st c i j hstep]

theorem foldRows_L_ne (D : Nat) (m : Mat) (rs : List Nat) (st : Mat × Mat)
    (i j : Nat) (h : i ∉ rs) :
    ((rs.foldl (luRowStep D m) st)).1 i j = st.1 i j := by
  induction rs generalizing st with
  | nil => rfl
  | cons r rs ih =>
    rw [List.foldl_cons, ih _ fun hi => h (List.mem_cons_of_mem _ hi)]
    exact foldCols_L_ne m r (List.range D) st i j
      (Or.inl fun hir => h (hir ▸ List.mem_cons_self r rs))

theorem foldRows_U_ne (D : Nat) (m : Mat) (rs : List Nat) (st : Mat × Mat)
    (i j : Nat) (h : i ∉ rs) :
    ((rs.foldl (luRowStep D m) st)).2 i j = st.2 i j := by
  induction rs generalizing st with
  | nil => rfl
  | cons r rs ih =>
    rw [List.foldl_cons, ih _ fun hi => h (List.mem_cons_of_mem _ hi)]
    exact foldCols_U_ne m r (List.range D) st i j
      (Or.inl fun hir => h (hir ▸ List.mem_cons_self r rs))

theorem luDecomposition_eq_luRows (D : Nat) (m : Mat) :
    luDecomposition D m = luRows D m D := rfl

theorem luRows_succ (D : Nat) (m : Mat) (r : Nat) :
    luRows D m (r + 1) = luRowStep D m (luRows D m r) r := by
  unfold luRows
  rw [List.range_succ, List.foldl_append]
  rfl

theorem luRowStep_eq_luCols (D : Nat) (m : Mat) (r : Nat) :
    luRowStep D m (luRows D m r) r = luCols D m r D := rfl

theorem luCols_succ (D : Nat) (m : Mat) (r c : Nat) :
    luCols D m r (c + 1) = luColStep m r (luCols D m r c) c := by
  unfold luCols
  rw [List.range_succ, List.foldl_append]
  rfl

theorem luCols_split (D : Nat) (m : Mat) (r c c₂ : Nat) (h : c ≤ c₂) :
    luCols D m r c₂ = (List.range' c (c₂ - c)).foldl (luColStep m r) (luCols D m r c) := by
  unfold luCols
  rw [range_split c c₂ h, List.foldl_append]

theorem luRows_split (D : Nat) (m : Mat) (r r₂ : Nat) (h : r ≤ r₂) :
    luRows D m r₂ = (List.range' r (r₂ - r)).foldl (luRowStep D m) (luRows D m r) := by
  unfold luRows
  rw [range_split r r₂ h, List.foldl_append]

/-- Rows below `i` of the outer loop never write row `i` again: the final `L`
at row `i` is the state after the outer loop has processed row `i`. -/
theorem lu_final_L (D : Nat) (m : Mat) (i : Nat) (hi : i < D) (j : Nat) :
    (luDecomposition D m).1 i j = (luRows D m (i + 1)).1 i j := by
  rw [luDecomposition_eq_luRows, luRows_split D m (i + 1) D hi]
  exact foldRows_L_ne D m _ _ i j (not_mem_range'_small _ (Nat.lt_succ_self i))

theorem lu_final_U (D : Nat) (m : Mat) (i : Nat) (hi : i < D) (j : Nat) :
    (luDecomposition D m).2 i j = (luRows D m (i + 1)).2 i j := by
  rw [luDecomposition_eq_luRows, luRows_split D m (i + 1) D hi]
  exact foldRows_U_ne D m _ _ i j (not_mem_range'_small _ (Nat.lt_succ_self i))

/-- In the state at the start of outer row `r`, every row `k < r` already
holds its final values. -/
theorem luRows_final_L (D : Nat) (m : Mat) (k : Nat) (hk : k < D) (r : Nat)
    (hkr : k < r) (j : Nat) :
    (luRows D m r).1 k j = (luDecomposition D m).1 k j := by
  rw [lu_final_L D m k hk j, luRows_split D m (k + 1) r hkr]
  exact foldRows_L_ne D m _ _ k j (not_mem_range'_small _ (Nat.lt_succ_self k))

theorem luRows_final_U (D : Nat) (m : Mat) (k : Nat) (hk : k < D) (r : Nat)
    (hkr : k < r) (j : Nat) :
    (luRows D m r).2 k j = (luDecomposition D m).2 k j := by
  rw [lu_final_U D m k hk j, luRows_split D m (k + 1) r hkr]
  exact foldRows_U_ne D m _ _ k j (not_mem_range'_small _ (Nat.lt_succ_self k))

/-- Columns past `k` of the inner loop never write `L[r][k]` again. -/
theorem luCols_L_past (D : Nat) (m : Mat) (r k c₂ : Nat) (hk : k < c₂) :
    (luCols D m r c₂).1 r k = (luCols D m r (k + 1)).1 r k := by
  rw [luCols_split D m r (k + 1) c₂ hk]
  exact foldCols_L_ne m r _ _ r k (Or.inr (not_mem_range'_small _ (Nat.lt_succ_self k)))

/-- The final `L[r][k]` is already present once the inner loop of row `r` has
passed column `k`. -/
theorem lu_final_L_from_cols (D : Nat) (m : Mat) (r k : Nat) (hr : r < D) (hk : k < D) :
    (luDecomposition D m).1 r k = (luCols D m r (k + 1)).1 r k := by
  rw [lu_final_L D m r hr k, luRows_succ, luRowStep_eq_luCols]
  exact luCols_L_past D m r k D hk

/-- Defining equation of `U`: for `r ≤ c` (both in range),
`U[r][c] = m[r][c] - Σ_{k<r} U[k][c]·L[r][k]` holds of the final factors. -/
theorem lu_U_eq (D : Nat) (m : Mat) (r c : Nat) (hr : r < D) (hrc : r ≤ c) (hc : c < D) :
    (luDecomposition D m).2 r c =
      m r c - ∑ k ∈ Finset.range r,
        (luDecomposition D m).2 k c * (luDecomposition D m).1 r k := by
  have h1 : (luDecomposition D m).2 r c = (luColStep m r (luCols D m r c) c).2 r c := by
    rw [lu_final_U D m r hr c, luRows_succ, luRowStep_eq_luCols,
      luCols_split D m r (c + 1) D hc, ← luCols_succ]
    exact foldCols_U_ne m r _ _ r c (Or.inr (not_mem_range'_small _ (Nat.lt_succ_self c)))
  have h2 : (luColStep m r (luCols D m r c) c).2 r c =
      m r c - ∑ k ∈ Finset.range r, (luCols D m r c).2 k c * (luCols D m r c).1 r k := by
    unfold luColStep
    rw [if_pos hrc]
    exact updMat_self ..
  rw [h1, h2]
  congr 1
  refine Finset.sum_congr rfl fun k hk => ?_
  have hkr : k < r := Finset.mem_range.mp hk
  have hU : (luCols D m r c).2 k c = (luDecomposition D m).2 k c := by
    have := foldCols_U_ne m r (List.range c) (luRows D m r) k c (Or.inl (by omega))
    rw [luCols, this, luRows_final_U D m k (by omega) r hkr c]
  have hL : (luCols D m r c).1 r k = (luDecomposition D m).1 r k := by
    rw [luCols_L_past D m r k c (by omega),
      ← lu_final_L_from_cols D m r k hr (by omega)]
  rw [hU, hL]

/-- Defining equation of `L`: for `c < r` (both in range),
`L[r][c] = (m[r][c] - Σ_{k<c} U[k][c]·L[r][k]) / U[c][c]` holds of the final
factors. -/
theorem lu_L_eq (D : Nat) (m : Mat) (r c : Nat) (hc : c < r) (hr : r < D) :
    (luDecomposition D m).1 r c =
      (m r c - ∑ k ∈ Finset.range c,
        (luDecomposition D m).2 k c * (luDecomposition D m).1 r k) /
      (luDecomposition D m).2 c c := by
  have h1 : (luDecomposition D m).1 r c = (luColStep m r (luCols D m r c) c).1 r c := by
    rw [lu_final_L D m r hr c, luRows_succ, luRowStep_eq_luCols,
      luCols_split D m r (c + 1) D (by omega), ← luCols_succ]
    exact foldCols_L_ne m r _ _ r c (Or.inr (not_mem_range'_small _ (Nat.lt_succ_self c)))
  have h2 : (luColStep m r (luCols D m r c) c).1 r c =
      (m r c - ∑ k ∈ Finset.range c, (luCols D m r c).2 k c * (luCols D m r c).1 r k) /
        (luCols D m r c).2 c c := by
    unfold luColStep
    rw [if_neg (by omega)]
    exact updMat_self ..
  have hUcc : (luCols D m r c).2 c c = (luDecomposition D m).2 c c := by
    have := foldCols_U_ne m r (List.range c) (luRows D m r) c c (Or.inl (by omega))
    rw [luCols, this, luRows_final_U D m c (by omega) r hc c]
  rw [h1, h2, hUcc]
  congr 2
  refine Finset.sum_congr rfl fun k hk => ?_
  have hkc : k < c := Finset.mem_range.mp hk
  have hU : (luCols D m r c).2 k c = (luDecomposition D m).2 k c := by
    have := foldCols_U_ne m r (List.range c) (luRows D m r) k c (Or.inl (by omega))
    rw [luCols, this, luRows_final_U D m k (by omega) r (by omega) c]
  have hL : (luCols D m r c).1 r k = (luDecomposition D m).1 r k := by
    rw [luCols_L_past D m r k c hkc,
      ← lu_final_L_from_cols D m r k hr (by omega)]
  rw [hU, hL]

/-! ### Claims C10, C4, C5, C7, C8, and the concrete C1/C2 evidence -/

/-- C10: `analyzeRefMat` returns `0` — the "not solvable" code — for every
matrix of every shape, its documented 0/1/2 classification contract
notwithstanding (the body is `//TODO return 0;`). -/
theorem analyzeRefMat_always_zero : ∀ (R C : Nat) (m : Mat), analyzeRefMat R C m = 0 :=
  fun _ _ _ => rfl

/-- Whenever a diagonal entry of `U` in the pivoted LU factorization is `0`,
`det` returns exactly `0`: the zero factor annihilates `diagonalMult(U)`. -/
theorem det_diagU_zero (D : Nat) (m : Mat) (c : Nat) (hc : c < D)
    (h0 : (luDecomposition D (pivot D m).1).2 c c = 0) : det D m = 0 := by
  have hU : diagonalMult D (luDecomposition D (pivot D m).1).2 = 0 :=
    Finset.prod_eq_zero (Finset.mem_range.mpr hc) h0
  show diagonalMult D (luDecomposition D (pivot D m).1).1 *
      diagonalMult D (luDecomposition D (pivot D m).1).2 * ((pivot D m).2 : ℚ) = 0
  rw [hU, mul_zero, zero_mul]

/-- C5: `det(A)` equals `sign(P) · Π diag(L) · Π diag(U)` for the pivoted LU
factors of `A`, and since every diagonal entry of `L` is `1` this reduces to
`sign(P) · Π diag(U)`. -/
theorem det_eq_sign_mul_diag (D : Nat) (m : Mat) :
    det D m = ((pivot D m).2 : ℚ) * diagonalMult D (luDecomposition D (pivot D m).1).1 *
        diagonalMult D (luDecomposition D (pivot D m).1).2 ∧
      diagonalMult D (luDecomposition D (pivot D m).1).1 = 1 ∧
      det D m = ((pivot D m).2 : ℚ) * diagonalMult D (luDecomposition D (pivot D m).1).2 := by
  have hL : diagonalMult D (luDecomposition D (pivot D m).1).1 = 1 :=
    Finset.prod_eq_one fun i hi => lu_L_diag D _ i (Finset.mem_range.mp hi)
  refine ⟨by show _ * _ * _ = _; ring, hL, ?_⟩
  show diagonalMult D (luDecomposition D (pivot D m).1).1 *
      diagonalMult D (luDecomposition D (pivot D m).1).2 * ((pivot D m).2 : ℚ) =
    ((pivot D m).2 : ℚ) * diagonalMult D (luDecomposition D (pivot D m).1).2
  rw [hL]; ring

/-- C7: for every square matrix, the LU factors satisfy: `L` has unit
diagonal, `L` vanishes strictly above the diagonal, and `U` vanishes strictly
below the diagonal. -/
theorem lu_factors_triangular (D : Nat) (m : Mat) (r c : Nat) (hr : r < D) (_hc : c < D) :
    (luDecomposition D m).1 r r = 1 ∧
      (r < c → (luDecomposition D m).1 r c = 0) ∧
      (c < r → (luDecomposition D m).2 r c = 0) :=
  ⟨lu_L_diag D m r hr, fun h => lu_L_strict_upper D m r c h,
    fun h => lu_U_lower D m r c h⟩

theorem lu_factors_triangular_w :
    (0 < 2 ∧ 1 < 2) ∧
      ((luDecomposition 2 wA).1 0 0 = 1 ∧
        (0 < 1 → (luDecomposition 2 wA).1 0 1 = 0) ∧
        (1 < 0 → (luDecomposition 2 wA).2 0 1 = 0)) :=
  ⟨⟨by decide, by decide⟩, lu_factors_triangular 2 wA 0 1 (by decide) (by decide)⟩

/-- C8: the reduced row echelon form of the 3×5 test matrix of
docs/tests/mat.cpp is exactly the expected reduced matrix, entry for entry. -/
theorem rref_concrete_case :
    (fun (r : Fin 3) (c : Fin 5) => rrefMat 3 5 echA r.1 c.1)
      = fun (r : Fin 3) (c : Fin 5) => echR r.1 c.1 := by decide

/-- C2 evidence: on the 1×1 all-zero matrix (whose row echelon form is again
the all-zero row), the leading-entry scan of `rrefMat`'s bottom-to-top pass
stops at column `1 = C`, so the subsequent skip test `m[r][c] == 0` reads
column `C`, one past the last valid column index `C - 1 = 0`: the C++ code
indexes out of bounds exactly on the all-zero rows the claim is about. -/
theorem rref_scan_column_out_of_bounds :
    refMat 1 1 zeroMat 0 0 = 0 ∧
      leadScan (refMat 1 1 zeroMat) 1 0 = 1 ∧
      ¬leadScan (refMat 1 1 zeroMat) 1 0 ≤ 1 - 1 := by decide

/-- C1 counterexample: for the 3×3 matrix `[[2,2,0],[1,1,1],[0,1,1]]` (left
unchanged by `pivot`), the elimination hits a zero pivot `U[1][1] = 0`, the
division defining `L[2][1]` is a division by zero, and the product of the
returned factors differs from the pivoted input at entry `(2,1)`:
`(L·U)[2][1] = 0` while `(P·A)[2][1] = 1`.  (Under IEEE doubles the same entry
is `NaN`, so the claimed equality fails there as well.) -/
theorem lu_product_cex :
    matMul 3 (luDecomposition 3 (pivot 3 cexA).1).1 (luDecomposition 3 (pivot 3 cexA).1).2 2 1
      ≠ (pivot 3 cexA).1 2 1 := by decide


/-- Provided every diagonal entry of `U` that the elimination divides by is
nonzero, the factors multiply back to the pivoted input on the stored
block. -/
theorem lu_mul_block (D : Nat) (m : Mat)
    (hU : ∀ c, c < D - 1 → (luDecomposition D (pivot D m).1).2 c c ≠ 0) :
    ∀ r c, r < D → c < D →
      matMul D (luDecomposition D (pivot D m).1).1 (luDecomposition D (pivot D m).1).2 r c
        = (pivot D m).1 r c := by
  intro r c hr hc
  show ∑ k ∈ Finset.range D,
      (luDecomposition D (pivot D m).1).1 r k * (luDecomposition D (pivot D m).1).2 k c
    = (pivot D m).1 r c
  rcases le_or_lt r c with hrc | hcr
  · have hzero : ∀ k ∈ Finset.range D, k ∉ Finset.range (r + 1) →
        (luDecomposition D (pivot D m).1).1 r k * (luDecomposition D (pivot D m).1).2 k c = 0 := by
      intro k _ hk
      have hrk : r < k := by
        by_contra hcon
        exact hk (Finset.mem_range.mpr (by omega))
      rw [lu_L_strict_upper D _ r k hrk, zero_mul]
    rw [← Finset.sum_subset (Finset.range_subset.mpr (by omega : r + 1 ≤ D)) hzero,
      Finset.sum_range_succ, lu_L_diag D _ r hr, one_mul,
      lu_U_eq D _ r c hr hrc hc,
      Finset.sum_congr rfl fun k _ => mul_comm
        ((luDecomposition D (pivot D m).1).1 r k) ((luDecomposition D (pivot D m).1).2 k c)]
    ring
  · have hzero : ∀ k ∈ Finset.range D, k ∉ Finset.range (c + 1) →
        (luDecomposition D (pivot D m).1).1 r k * (luDecomposition D (pivot D m).1).2 k c = 0 := by
      intro k _ hk
      have hck : c < k := by
        by_contra hcon
        exact hk (Finset.mem_range.mpr (by omega))
      rw [lu_U_lower D _ k c hck, mul_zero]
    have hUcc : (luDecomposition D (pivot D m).1).2 c c ≠ 0 := hU c (by omega)
    rw [← Finset.sum_subset (Finset.range_subset.mpr (by omega : c + 1 ≤ D)) hzero,
      Finset.sum_range_succ, lu_L_eq D _ r c hcr hr, div_mul_cancel₀ _ hUcc,
      Finset.sum_congr rfl fun k _ => mul_comm
        ((luDecomposition D (pivot D m).1).1 r k) ((luDecomposition D (pivot D m).1).2 k c)]
    ring

/-- C1 (amended): provided every diagonal entry of `U` that the elimination
divides by (all but possibly the last) is nonzero, the factors returned by
`luDecomposition` on the pivoted copy of `A` multiply back to the row-permuted
input: `(L·U)[r][c] = (P·A)[r][c]` on the whole stored block.  The unamended
claim fails on singular matrices with an interior zero pivot
(`lu_product_cex`). -/
theorem lu_product_eq_pivoted (D : Nat) (m : Mat)
    (hU : ∀ c, c < D - 1 → (luDecomposition D (pivot D m).1).2 c c ≠ 0) :
    ∀ r c, r < D → c < D →
      matMul D (luDecomposition D (pivot D m).1).1 (luDecomposition D (pivot D m).1).2 r c
        = (pivot D m).1 r c :=
  lu_mul_block D m hU

theorem lu_product_eq_pivoted_w :
    ((∀ c, c < 2 - 1 → (luDecomposition 2 (pivot 2 wA).1).2 c c ≠ 0) ∧ 1 < 2 ∧ 0 < 2) ∧
      matMul 2 (luDecomposition 2 (pivot 2 wA).1).1 (luDecomposition 2 (pivot 2 wA).1).2 1 0
        = (pivot 2 wA).1 1 0 :=
  ⟨⟨by decide, by decide, by decide⟩,
    lu_product_eq_pivoted 2 wA (by decide) 1 0 (by decide) (by decide)⟩


/-! ### The pivot invariant: after pivoting, every diagonal entry dominates
its column below it, so a second pivot pass does nothing (claim C3) -/

theorem mem_range'_iff {s n x : Nat} : x ∈ List.range' s n ↔ s ≤ x ∧ x < s + n := by
  rw [List.mem_range']
  constructor
  · rintro ⟨k, hk, rfl⟩
    omega
  · rintro ⟨h1, h2⟩
    exact ⟨x - s, by omega, by omega⟩

theorem maxRowFold_cons (m : Mat) (c start r : Nat) (rs : List Nat) :
    maxRowFold m c start (r :: rs) =
      maxRowFold m c (if |m start c| < |m r c| then r else start) rs := rfl

theorem maxRowFold_mem (m : Mat) (c : Nat) (rows : List Nat) :
    ∀ start, maxRowFold m c start rows = start ∨ maxRowFold m c start rows ∈ rows := by
  induction rows with
  | nil => exact fun _ => Or.inl rfl
  | cons r rs ih =>
    intro start
    rw [maxRowFold_cons]
    by_cases hlt : |m start c| < |m r c|
    · rw [if_pos hlt]
      rcases ih r with h | h
      · exact Or.inr (by rw [h]; exact List.mem_cons_self _ _)
      · exact Or.inr (List.mem_cons_of_mem _ h)
    · rw [if_neg hlt]
      rcases ih start with h | h
      · exact Or.inl h
      · exact Or.inr (List.mem_cons_of_mem _ h)

theorem maxRowFold_ge (m : Mat) (c : Nat) (rows : List Nat) :
    ∀ start, |m start c| ≤ |m (maxRowFold m c start rows) c| ∧
      ∀ x ∈ rows, |m x c| ≤ |m (maxRowFold m c start rows) c| := by
  induction rows with
  | nil => exact fun _ => ⟨le_rfl, fun x hx => absurd hx (List.not_mem_nil x)⟩
  | cons r rs ih =>
    intro start
    rw [maxRowFold_cons]
    by_cases hlt : |m start c| < |m r c|
    · rw [if_pos hlt]
      obtain ⟨h1, h2⟩ := ih r
      refine ⟨le_of_lt (lt_of_lt_of_le hlt h1), fun x hx => ?_⟩
      rcases List.mem_cons.mp hx with rfl | hx
      · exact h1
      · exact h2 x hx
    · rw [if_neg hlt]
      obtain ⟨h1, h2⟩ := ih start
      refine ⟨h1, fun x hx => ?_⟩
      rcases List.mem_cons.mp hx with rfl | hx
      · exact le_trans (not_lt.mp hlt) h1
      · exact h2 x hx

theorem maxRowFold_keep (m : Mat) (c start : Nat) :
    ∀ rows : List Nat, (∀ x ∈ rows, ¬|m start c| < |m x c|) →
      maxRowFold m c start rows = start
  | [], _ => rfl
  | r :: rs, h => by
    rw [maxRowFold_cons, if_neg (h r (List.mem_cons_self _ _))]
    exact maxRowFold_keep m c start rs fun x hx => h x (List.mem_cons_of_mem _ hx)

/-- The invariant established by `pivot`: in every column `c' < n` the
diagonal entry dominates, in absolute value, every entry at or below it. -/
def colsSorted (D n : Nat) (m : Mat) : Prop :=
  ∀ c', c' < n → ∀ r, c' ≤ r → r < D → |m r c'| ≤ |m c' c'|

theorem pivotStep_sorted (D c : Nat) (hc : c < D) (st : Mat × Int)
    (hst : colsSorted D c st.1) : colsSorted D (c + 1) (pivotStep D st c).1 := by
  have hmem := maxRowFold_mem st.1 c (List.range' c (D - c)) c
  have hge := maxRowFold_ge st.1 c (List.range' c (D - c)) c
  set maxR := maxRowFold st.1 c c (List.range' c (D - c)) with hmdef
  have hbounds : c ≤ maxR ∧ maxR < D := by
    rcases hmem with h | h
    · omega
    · have := mem_range'_iff.mp h
      omega
  have hdom : ∀ r, c ≤ r → r < D → |st.1 r c| ≤ |st.1 maxR c| := fun r h1 h2 =>
    hge.2 r (mem_range'_iff.mpr ⟨h1, by omega⟩)
  have key : colsSorted D c (pivotStep D st c).1 ∧
      ∀ r, c ≤ r → r < D →
        |(pivotStep D st c).1 r c| ≤ |(pivotStep D st c).1 c c| := by
    unfold pivotStep
    rw [← hmdef]
    by_cases hne : maxR ≠ c
    · rw [if_pos hne]
      constructor
      · intro c' hc' r h1 h2
        show |swapRow st.1 c maxR r c'| ≤ |swapRow st.1 c maxR c' c'|
        have hd : swapRow st.1 c maxR c' c' = st.1 c' c' := by
          unfold swapRow
          rw [if_neg (by omega), if_neg (by omega)]
        rw [hd]
        unfold swapRow
        by_cases e1 : r = c
        · rw [if_pos e1]
          exact hst c' hc' maxR (by omega) (by omega)
        · rw [if_neg e1]
          by_cases e2 : r = maxR
          · rw [if_pos e2]
            exact hst c' hc' c (by omega) hc
          · rw [if_neg e2]
            exact hst c' hc' r h1 h2
      · intro r h1 h2
        show |swapRow st.1 c maxR r c| ≤ |swapRow st.1 c maxR c c|
        have hd : swapRow st.1 c maxR c c = st.1 maxR c := by
          unfold swapRow
          rw [if_pos rfl]
        rw [hd]
        unfold swapRow
        by_cases e1 : r = c
        · rw [if_pos e1]
        · rw [if_neg e1]
          by_cases e2 : r = maxR
          · rw [if_pos e2]
            exact hdom c le_rfl hc
          · rw [if_neg e2]
            exact hdom r h1 h2
    · rw [if_neg hne]
      push_neg at hne
      exact ⟨hst, fun r h1 h2 => hne ▸ hdom r h1 h2⟩
  intro c' hc' r h1 h2
  rcases Nat.lt_or_ge c' c with hlt | hge'
  · exact key.1 c' hlt r h1 h2
  · have hceq : c' = c := by omega
    rw [hceq] at h1 ⊢
    exact key.2 r h1 h2

theorem pivotFold_sorted (D : Nat) : ∀ n c : Nat, c + n = D →
    ∀ st : Mat × Int, colsSorted D c st.1 →
      colsSorted D D ((List.range' c n).foldl (pivotStep D) st).1 := by
  intro n
  induction n with
  | zero =>
    intro c hc st hst
    simpa using hc ▸ hst
  | succ n ih =>
    intro c hc st hst
    rw [List.range'_succ, List.foldl_cons]
    exact ih (c + 1) (by omega) _ (pivotStep_sorted D c (by omega) st hst)

/-- After the pivot pass, every column is dominated by its diagonal entry. -/
theorem pivot_sorted (D : Nat) (m : Mat) : colsSorted D D (pivot D m).1 := by
  have h0 : colsSorted D 0 m := fun c' hc' => absurd hc' (Nat.not_lt_zero c')
  have h := pivotFold_sorted D D 0 (by omega) (m, 1) h0
  unfold pivot
  rw [List.range_eq_range']
  simpa using h

theorem pivotStep_id (D c : Nat) (st : Mat × Int)
    (hsorted : ∀ r, c ≤ r → r < D → |st.1 r c| ≤ |st.1 c c|) :
    pivotStep D st c = st := by
  have hmax : maxRowFold st.1 c c (List.range' c (D - c)) = c := by
    apply maxRowFold_keep
    intro x hx
    have hb := mem_range'_iff.mp hx
    exact not_lt.mpr (hsorted x hb.1 (by omega))
  unfold pivotStep
  rw [hmax]
  simp

theorem pivotFold_id (D : Nat) : ∀ n c : Nat, c + n = D → ∀ st : Mat × Int,
    colsSorted D D st.1 → (List.range' c n).foldl (pivotStep D) st = st := by
  intro n
  induction n with
  | zero => intro c hc st hst; rfl
  | succ n ih =>
    intro c hc st hst
    rw [List.range'_succ, List.foldl_cons,
      pivotStep_id D c st fun r h1 h2 => hst c (by omega) r h1 h2]
    exact ih (c + 1) (by omega) st hst

/-- C3: re-running `pivot` on the already-pivoted matrix performs no row swap
(the matrix comes back unchanged) and returns the sign `+1`, so decomposing
the re-pivoted matrix yields exactly the same `L` and `U` as the original
decomposition. -/
theorem pivot_idempotent (D : Nat) (m : Mat) :
    pivot D (pivot D m).1 = ((pivot D m).1, 1) ∧
      luDecomposition D (pivot D (pivot D m).1).1 = luDecomposition D (pivot D m).1 := by
  have hs := pivot_sorted D m
  have h1 : pivot D (pivot D m).1 = ((pivot D m).1, 1) := by
    show (List.range D).foldl (pivotStep D) ((pivot D m).1, 1) = ((pivot D m).1, 1)
    rw [List.range_eq_range']
    exact pivotFold_id D D 0 (by omega) _ hs
  exact ⟨h1, by rw [h1]⟩


/-! ### Pivot as a row permutation with its parity sign (claim C6) -/

theorem pivotStep_perm (D : Nat) (m : Mat) (c : Nat) (st : Mat × Int)
    (h : ∃ σ : Equiv.Perm (Fin D),
      (∀ (i : Fin D) (j : Nat), st.1 (i : Nat) j = m ((σ i : Fin D) : Nat) j) ∧
        st.2 = ((Equiv.Perm.sign σ : ℤˣ) : ℤ)) :
    ∃ σ : Equiv.Perm (Fin D),
      (∀ (i : Fin D) (j : Nat), (pivotStep D st c).1 (i : Nat) j = m ((σ i : Fin D) : Nat) j) ∧
        (pivotStep D st c).2 = ((Equiv.Perm.sign σ : ℤˣ) : ℤ) := by
  obtain ⟨σ, hmat, hsign⟩ := h
  have hmem := maxRowFold_mem st.1 c (List.range' c (D - c)) c
  set maxR := maxRowFold st.1 c c (List.range' c (D - c)) with hmdef
  unfold pivotStep
  rw [← hmdef]
  by_cases hne : maxR ≠ c
  · rw [if_pos hne]
    have hmr : c ≤ maxR ∧ maxR < c + (D - c) := by
      rcases hmem with h | h
      · exact absurd h hne
      · exact mem_range'_iff.mp h
    have hcD : c < D := by omega
    have hmD : maxR < D := by omega
    have hfne : (⟨c, hcD⟩ : Fin D) ≠ ⟨maxR, hmD⟩ :=
      Fin.ne_of_val_ne fun hy => hne hy.symm
    refine ⟨σ * Equiv.swap ⟨c, hcD⟩ ⟨maxR, hmD⟩, fun i j => ?_, ?_⟩
    · show swapRow st.1 c maxR (i : Nat) j = _
      unfold swapRow
      by_cases e1 : (i : Nat) = c
      · rw [if_pos e1]
        have hi : i = ⟨c, hcD⟩ := Fin.ext e1
        rw [hi, Equiv.Perm.mul_apply, Equiv.swap_apply_left]
        exact hmat ⟨maxR, hmD⟩ j
      · rw [if_neg e1]
        by_cases e2 : (i : Nat) = maxR
        · rw [if_pos e2]
          have hi : i = ⟨maxR, hmD⟩ := Fin.ext e2
          rw [hi, Equiv.Perm.mul_apply, Equiv.swap_apply_right]
          exact hmat ⟨c, hcD⟩ j
        · rw [if_neg e2]
          rw [Equiv.Perm.mul_apply, Equiv.swap_apply_of_ne_of_ne
            (fun hh => e1 (by rw [hh])) fun hh => e2 (by rw [hh])]
          exact hmat i j
    · show -st.2 = _
      rw [map_mul, Equiv.Perm.sign_swap hfne, hsign]
      simp
  · rw [if_neg hne]
    exact ⟨σ, hmat, hsign⟩

theorem pivotFold_perm (D : Nat) (m : Mat) :
    ∀ cs : List Nat, ∀ st : Mat × Int,
      (∃ σ : Equiv.Perm (Fin D),
        (∀ (i : Fin D) (j : Nat), st.1 (i : Nat) j = m ((σ i : Fin D) : Nat) j) ∧
          st.2 = ((Equiv.Perm.sign σ : ℤˣ) : ℤ)) →
      ∃ σ : Equiv.Perm (Fin D),
        (∀ (i : Fin D) (j : Nat),
          (cs.foldl (pivotStep D) st).1 (i : Nat) j = m ((σ i : Fin D) : Nat) j) ∧
          (cs.foldl (pivotStep D) st).2 = ((Equiv.Perm.sign σ : ℤˣ) : ℤ) := by
  intro cs
  induction cs with
  | nil => exact fun st h => h
  | cons c cs ih =>
    intro st h
    rw [List.foldl_cons]
    exact ih _ (pivotStep_perm D m c st h)

/-- C6: `pivot` turns the stored block of `m` into a row permutation of the
original contents, and the accumulated sign — starting at `+1` and flipped
once per swap — is `±1` and equals the parity sign of that permutation. -/
theorem pivot_permutes_with_sign (D : Nat) (m : Mat) :
    ∃ σ : Equiv.Perm (Fin D),
      (∀ (i : Fin D) (j : Nat), (pivot D m).1 (i : Nat) j = m ((σ i : Fin D) : Nat) j) ∧
        (pivot D m).2 = ((Equiv.Perm.sign σ : ℤˣ) : ℤ) ∧
        ((pivot D m).2 = 1 ∨ (pivot D m).2 = -1) := by
  obtain ⟨σ, hmat, hsign⟩ :=
    pivotFold_perm D m (List.range D) (m, 1) ⟨1, fun i j => rfl, by simp⟩
  have hsign2 : (pivot D m).2 = ((Equiv.Perm.sign σ : ℤˣ) : ℤ) := hsign
  refine ⟨σ, hmat, hsign2, ?_⟩
  rcases Int.units_eq_one_or (Equiv.Perm.sign σ) with h | h <;> rw [hsign2, h] <;> simp

/-! ### The spec-modelled inverse entry points (claim C9) -/

theorem pivotPStep_fst (D : Nat) (st : (Mat × Int) × Mat) (c : Nat) :
    (pivotPStep D st c).1 = pivotStep D st.1 c := by
  unfold pivotPStep pivotStep
  by_cases h : maxRowFold st.1.1 c c (List.range' c (D - c)) ≠ c
  · rw [if_pos h, if_pos h]
  · rw [if_neg h, if_neg h]

theorem pivotP_fst (D : Nat) (m : Mat) : (pivotP D m).1 = pivot D m := by
  unfold pivotP pivot
  suffices h : ∀ (cs : List Nat) (st : (Mat × Int) × Mat),
      (cs.foldl (pivotPStep D) st).1 = cs.foldl (pivotStep D) st.1 from
    h (List.range D) ((m, 1), identityMat D)
  intro cs
  induction cs with
  | nil => exact fun _ => rfl
  | cons c cs ih =>
    intro st
    rw [List.foldl_cons, List.foldl_cons, ih, pivotPStep_fst]

/-- C9 (spec-modelled): for a singular input — some diagonal entry of `U` in
the pivoted LU factorization is zero — the raw-matrix entry point
`inverse(A)` and the factor entry point `inverse(L, U)` both fail with the
same invalid-argument singular-matrix error, and the error is raised exactly
when such a zero diagonal entry exists. -/
theorem inverse_singular_same_error (D : Nat) (m : Mat)
    (hs : ∃ c ∈ Finset.range D, (luDecomposition D (pivot D m).1).2 c c = 0) :
    inverse D m = Except.error singMsg ∧
      inverseLU D (luDecomposition D (pivot D m).1).1
        (luDecomposition D (pivot D m).1).2 = Except.error singMsg ∧
      ∀ L U : Mat, (inverseLU D L U = Except.error singMsg ↔
        ∃ c ∈ Finset.range D, U c c = 0) := by
  have hgen : ∀ L U : Mat, (inverseLU D L U = Except.error singMsg ↔
      ∃ c ∈ Finset.range D, U c c = 0) := by
    intro L U
    unfold inverseLU
    by_cases h : ∃ c ∈ Finset.range D, U c c = 0
    · rw [if_pos h]
      exact ⟨fun _ => h, fun _ => rfl⟩
    · rw [if_neg h]
      exact ⟨fun hcon => Except.noConfusion hcon, fun hcon => absurd hcon h⟩
  have h2 : inverseLU D (luDecomposition D (pivot D m).1).1
      (luDecomposition D (pivot D m).1).2 = Except.error singMsg := (hgen _ _).mpr hs
  refine ⟨?_, h2, hgen⟩
  simp only [inverse]
  rw [pivotP_fst, h2]
  rfl

theorem inverse_singular_same_error_w :
    (∃ c ∈ Finset.range 1, (luDecomposition 1 (pivot 1 zeroMat).1).2 c c = 0) ∧
      (inverse 1 zeroMat = Except.error singMsg ∧
        inverseLU 1 (luDecomposition 1 (pivot 1 zeroMat).1).1
          (luDecomposition 1 (pivot 1 zeroMat).1).2 = Except.error singMsg ∧
        ∀ L U : Mat, (inverseLU 1 L U = Except.error singMsg ↔
          ∃ c ∈ Finset.range 1, U c c = 0)) :=
  ⟨by decide, inverse_singular_same_error 1 zeroMat (by decide)⟩


/-! ### Determinant of a singular matrix (claim C4) -/

theorem det_toMatrix_L_one (D : Nat) (m : Mat) :
    (toMatrix D (luDecomposition D m).1).det = 1 := by
  rw [Matrix.det_of_lowerTriangular (toMatrix D (luDecomposition D m).1)
    fun i j hij => lu_L_strict_upper D m i j (by simpa using hij)]
  exact Finset.prod_eq_one fun i _ => lu_L_diag D m i i.2

theorem det_toMatrix_U_prod (D : Nat) (m : Mat) :
    (toMatrix D (luDecomposition D m).2).det =
      ∏ i : Fin D, (luDecomposition D m).2 (i : Nat) (i : Nat) :=
  Matrix.det_of_upperTriangular fun i j hij => lu_U_lower D m i j hij

/-- C4: for every singular square matrix — `Matrix.det` of the stored block
vanishes, and in particular whenever a diagonal entry of `U` in the pivoted LU
factorization is `0` — `det` raises no error (it is a total function, the
source has no error path) and returns exactly `0`. -/
theorem det_singular_zero (D : Nat) (m : Mat)
    (hsing : (toMatrix D m).det = 0 ∨
      ∃ c ∈ Finset.range D, (luDecomposition D (pivot D m).1).2 c c = 0) :
    det D m = 0 := by
  rcases hsing with hsing | ⟨c, hc, h0⟩
  · by_cases hz : ∃ c ∈ Finset.range D, (luDecomposition D (pivot D m).1).2 c c = 0
    · obtain ⟨c, hc, h0⟩ := hz
      exact det_diagU_zero D m c (Finset.mem_range.mp hc) h0
    · exfalso
      push_neg at hz
      have hzD : ∀ c : Fin D, (luDecomposition D (pivot D m).1).2 (c : Nat) (c : Nat) ≠ 0 :=
        fun c => hz c (Finset.mem_range.mpr c.2)
      have hU : ∀ c, c < D - 1 → (luDecomposition D (pivot D m).1).2 c c ≠ 0 :=
        fun c hc => hz c (Finset.mem_range.mpr (by omega))
      have hprod := lu_mul_block D m hU
      have hmul : toMatrix D (luDecomposition D (pivot D m).1).1 *
          toMatrix D (luDecomposition D (pivot D m).1).2 = toMatrix D (pivot D m).1 := by
        ext i j
        rw [Matrix.mul_apply]
        simp only [toMatrix, Matrix.of_apply]
        have h1 := hprod (i : Nat) (j : Nat) i.2 j.2
        rw [show matMul D (luDecomposition D (pivot D m).1).1
            (luDecomposition D (pivot D m).1).2 (i : Nat) (j : Nat) =
            ∑ k ∈ Finset.range D, (luDecomposition D (pivot D m).1).1 (i : Nat) k *
              (luDecomposition D (pivot D m).1).2 k (j : Nat) from rfl] at h1
        rw [← h1]
        exact Fin.sum_univ_eq_sum_range
          (fun k => (luDecomposition D (pivot D m).1).1 (i : Nat) k *
            (luDecomposition D (pivot D m).1).2 k (j : Nat)) D
      obtain ⟨σ, hperm, -⟩ :=
        pivotFold_perm D m (List.range D) (m, 1) ⟨1, fun i j => rfl, by simp⟩
      have hsub : toMatrix D (pivot D m).1 = (toMatrix D m).submatrix σ id := by
        ext i j
        exact hperm i j
      have hdet := congrArg Matrix.det hmul
      rw [Matrix.det_mul, det_toMatrix_L_one, one_mul, hsub, Matrix.det_permute,
        hsing, mul_zero, det_toMatrix_U_prod] at hdet
      exact (Finset.prod_ne_zero_iff.mpr fun i _ => hzD i) hdet
  · exact det_diagU_zero D m c (Finset.mem_range.mp hc) h0

theorem det_singular_zero_w :
    ((toMatrix 2 onesMat).det = 0 ∨
      ∃ c ∈ Finset.range 2, (luDecomposition 2 (pivot 2 onesMat).1).2 c c = 0) ∧
      det 2 onesMat = 0 :=
  ⟨Or.inr (by decide), det_singular_zero 2 onesMat (Or.inr (by decide))⟩

end Nytl
